import Mathlib

/-!
Verification of the distributed trace-context propagation core described by
the repository specification.  The repository itself contains notebook code
that calls the propagation API (`run_tree.to_headers()`, `tracing_context`,
`RunTree`, `create_child`, `end`); the implementation of that API lives in
the external client library and is not part of the repository sources, so
the operations below are modelled from the specification, while the
receiving-side header extraction is embedded directly from the notebook's
server handler.

Strings are embedded as lists of characters so that splitting and joining
can be reasoned about structurally.
-/

namespace Tracing

/-- Character-list strings used throughout the embedding. -/
abbrev Str := List Char

/-- Key/value payloads (inputs, outputs, metadata, baggage). -/
abbrev KV := List (Str × Str)

/-- Modelled from the spec: the error kinds of §7 of the specification
(`InvalidInputError`, `AlreadyEndedError`, `EncodingError`,
`MalformedContextError`, `MissingParentContextError`); the library code
raising them is not part of the repository sources. -/
inductive TraceError where
  | InvalidInputError
  | AlreadyEndedError
  | EncodingError
  | MalformedContextError
  | MissingParentContextError
deriving DecidableEq, Repr

/-- Modelled from the spec: the immutable `TraceContext` value
`{trace_id, parent_run_id, parent_dotted_order, baggage}` of §3; the
library type it abstracts is not part of the repository sources. -/
structure TraceContext where
  trace_id : Str
  parent_run_id : Str
  parent_dotted_order : Str
  baggage : KV
deriving DecidableEq, Repr

/-- Modelled from the spec: the `RunRecord` entity of §3 (identity, parent
linkage, payloads, timing, `dotted_order`); the library run type is not
part of the repository sources. -/
structure RunRecord where
  id : Str
  trace_id : Str
  parent_id : Option Str
  name : Str
  run_type : Str
  inputs : KV
  outputs : Option KV
  start_time : Nat
  end_time : Option Nat
  metadata : KV
  tags : List Str
  dotted_order : Str
deriving DecidableEq, Repr

/-! ## String utilities -/

/-- Join a list of parts with a separator character between them. -/
def joinChar (c : Char) : List Str → Str
  | [] => []
  | [x] => x
  | x :: y :: ys => x ++ c :: joinChar c (y :: ys)

/-- Split a string at every occurrence of the separator character. -/
def splitOnChar (c : Char) : Str → List Str
  | [] => [[]]
  | a :: rest =>
    match splitOnChar c rest with
    | [] => [[a]]
    | s :: ss => if a = c then [] :: s :: ss else (a :: s) :: ss

/-- Split a string at the first occurrence of `c`, returning the parts
before and after it, or `none` when `c` does not occur. -/
def splitFirst (c : Char) : Str → Option (Str × Str)
  | [] => none
  | a :: rest =>
    if a = c then some ([], rest)
    else (splitFirst c rest).map (fun p => (a :: p.1, p.2))

/-- Strict lexicographic comparison on character lists, ordering characters
by their code points. -/
def lexLt : Str → Str → Bool
  | _, [] => false
  | [], _ :: _ => true
  | a :: as, b :: bs =>
    if a.toNat < b.toNat then true
    else if b.toNat < a.toNat then false
    else lexLt as bs

/-! ## Header codec, modelled from §4.3 of the specification -/

/-- The version marker carried by the primary identity field. -/
def VERSION : Str := ['v', '1']

/-- Transport key of the primary identity field, as read by the server
handler in the distributed-tracing notebook. -/
def primaryKey : Str := ['l', 'a', 'n', 'g', 's', 'm', 'i', 't', 'h', '-', 't', 'r', 'a', 'c', 'e']

/-- Transport key of the baggage field, as read by the server handler in
the distributed-tracing notebook. -/
def baggageKey : Str := ['b', 'a', 'g', 'g', 'a', 'g', 'e']

/-- Characters allowed in identifiers (UUID-style: hex digits and dashes). -/
def isIdChar (c : Char) : Bool :=
  c.isDigit || (decide ('a' ≤ c) && decide (c ≤ 'f')) || decide (c = '-')

/-- A valid identifier is nonempty and made of identifier characters. -/
def isValidId (x : Str) : Bool :=
  decide (x ≠ []) && x.all isIdChar

/-- A valid dotted order is nonempty and made of identifier characters and
level separators. -/
def isValidDotted (x : Str) : Bool :=
  decide (x ≠ []) && x.all (fun c => isIdChar c || decide (c = '.'))

/-- Baggage keys must avoid the pair separator and the key/value separator. -/
def isBagKeyChar (c : Char) : Bool :=
  decide (c ≠ '=') && decide (c ≠ ',')

/-- Does a baggage value contain the reserved pair delimiter? -/
def hasComma (v : Str) : Bool := v.any (fun c => c == ',')

/-- A well-formed baggage entry: nonempty delimiter-free key,
delimiter-free value. -/
def validKV (kv : Str × Str) : Bool :=
  decide (kv.1 ≠ []) && kv.1.all isBagKeyChar && !hasComma kv.2

/-- A valid `TraceContext`: identifiers parse, the dotted order parses, and
the baggage entries are well formed. -/
def validCtx (c : TraceContext) : Bool :=
  isValidId c.trace_id && isValidId c.parent_run_id &&
    isValidDotted c.parent_dotted_order && c.baggage.all validKV

/-- Render one baggage entry as `key=value`. -/
def renderEntry (kv : Str × Str) : Str := kv.1 ++ '=' :: kv.2

/-- Modelled from the spec: serialize the baggage mapping as
comma-separated `key=value` pairs (§4.3); the library serializer is not
part of the repository sources. -/
def renderBaggage : KV → Str
  | [] => []
  | kv :: rest => joinChar ',' ((kv :: rest).map renderEntry)

/-- Modelled from the spec: `encode` (§4.3) produces the versioned
semicolon-separated primary identity field and the baggage field, failing
with `EncodingError` when a baggage value contains the reserved delimiter;
the library encoder (`run_tree.to_headers`) is not part of the repository
sources. -/
def encode (ctx : TraceContext) : Except TraceError (Str × Str) :=
  if ctx.baggage.any (fun kv => hasComma kv.2) then
    .error .EncodingError
  else
    .ok (joinChar ';' [VERSION, ctx.trace_id, ctx.parent_run_id, ctx.parent_dotted_order],
         renderBaggage ctx.baggage)

/-- Parse one `key=value` baggage entry. -/
def parseEntry (e : Str) : Except TraceError (Str × Str) :=
  match splitFirst '=' e with
  | none => .error .MalformedContextError
  | some (k, v) => if k = [] then .error .MalformedContextError else .ok (k, v)

/-- Parse a list of baggage entries. -/
def parseEntries : List Str → Except TraceError KV
  | [] => .ok []
  | e :: es =>
    match parseEntry e, parseEntries es with
    | .ok kv, .ok rest => .ok (kv :: rest)
    | .error err, _ => .error err
    | _, .error err => .error err

/-- Modelled from the spec: parse the baggage field (§4.3); an empty field
is the empty mapping.  The library parser is not part of the repository
sources. -/
def parseBaggage (b : Str) : Except TraceError KV :=
  if b = [] then .ok [] else parseEntries (splitOnChar ',' b)

/-- Modelled from the spec: parse the primary identity field (§4.3),
failing closed with `MalformedContextError` on a wrong shape, an
unrecognized version tag, or components that do not parse as identifiers.
The library parser is not part of the repository sources. -/
def decodePrimary (p : Str) : Except TraceError (Str × Str × Str) :=
  match splitOnChar ';' p with
  | [v, t, pr, pdo] =>
    if v = VERSION then
      if isValidId t && isValidId pr && isValidDotted pdo then .ok (t, pr, pdo)
      else .error .MalformedContextError
    else .error .MalformedContextError
  | _ => .error .MalformedContextError

/-- Modelled from the spec: `decode` (§4.3) over the values of the two
transport fields.  A missing primary field is an error; a missing baggage
field decodes to the empty mapping.  The library decoder
(`tracing_context(parent=...)`) is not part of the repository sources. -/
def decode (p? : Option Str) (b? : Option Str) : Except TraceError TraceContext :=
  match p? with
  | none => .error .MalformedContextError
  | some p =>
    match decodePrimary p with
    | .error e => .error e
    | .ok (t, pr, pdo) =>
      match b? with
      | none => .ok ⟨t, pr, pdo, []⟩
      | some b =>
        match parseBaggage b with
        | .error e => .error e
        | .ok bag => .ok ⟨t, pr, pdo, bag⟩

/-- Decode from a whole header mapping by reading the two transport keys. -/
def decodeFields (fields : Str → Option Str) : Except TraceError TraceContext :=
  decode (fields primaryKey) (fields baggageKey)

/-- The two-field header mapping produced by a successful encode. -/
def headersOf (p b : Str) : Str → Option Str :=
  fun k => if k = primaryKey then some p else if k = baggageKey then some b else none

/-- Encode then decode through a header mapping, propagating encode errors. -/
def roundTrip (ctx : TraceContext) : Except TraceError TraceContext :=
  match encode ctx with
  | .error e => .error e
  | .ok (p, b) => decodeFields (headersOf p b)

/-! ## Receiving side, embedded from the server handler in the
distributed-tracing notebook -/

/-- The `parent_headers` dictionary built by the `tracing` endpoint: it
reads exactly the `langsmith-trace` and `baggage` request headers. -/
def parentHeaders (req : Str → Option Str) : Option Str × Option Str :=
  (req primaryKey, req baggageKey)

/-- The parent context the server resumes tracing from: the decode of the
two extracted header values. -/
def serverParentCtx (req : Str → Option Str) : Except TraceError TraceContext :=
  decode (parentHeaders req).1 (parentHeaders req).2

/-! ## RunTree bookkeeping, modelled from §3–§4 of the specification -/

/-- A dotted-order segment: a monotone rendering of the effective creation
time followed by a terminator and the run identifier.  Larger times give
lexicographically larger segments whatever the identifiers are. -/
def segStr (t : Nat) (rid : Str) : Str :=
  List.replicate t '1' ++ '0' :: rid

/-- Fresh run identifiers, injective in the allocation counter. -/
def idStr (n : Nat) : Str := '0' :: List.replicate n '1'

/-- Modelled from the spec: the in-process `RunTree` bookkeeping state of
§3–§5 — the records created so far (in creation order), the per-parent
monotone timestamp used to disambiguate sibling segments, and the fresh-id
counter.  The library `RunTree` class is not part of the repository
sources. -/
structure SysState where
  runs : List RunRecord
  lastChild : List (Str × Nat)
  nextId : Nat
deriving DecidableEq, Repr

/-- The empty bookkeeping state. -/
def startState : SysState := ⟨[], [], 0⟩

/-- Last effective child timestamp recorded for a parent (0 when none). -/
def lastOfL (lc : List (Str × Nat)) (pid : Str) : Nat :=
  match lc.find? (fun e => decide (e.1 = pid)) with
  | some e => e.2
  | none => 0

/-- Last effective child timestamp of a parent in a state. -/
def lastOf (s : SysState) (pid : Str) : Nat := lastOfL s.lastChild pid

/-- Effective timestamp of a new child: at least the clock, and strictly
after every previously used sibling timestamp. -/
def effTime (s : SysState) (pid : Str) (now : Nat) : Nat :=
  max now (lastOf s pid + 1)

/-- Look a run up by identifier (first match in creation order). -/
def findRun (s : SysState) (rid : Str) : Option RunRecord :=
  s.runs.find? (fun r => decide (r.id = rid))

/-- Replace the first run with the given identifier. -/
def replaceRun : List RunRecord → Str → RunRecord → List RunRecord
  | [], _, _ => []
  | x :: xs, rid, r' => if x.id = rid then r' :: xs else x :: replaceRun xs rid r'

/-- Modelled from the spec: `create_root` (§4.1) — fresh trace root with
`trace_id == id`, no parent, dotted order seeded from the start time;
fails with `InvalidInputError` on an empty name or run type.  The library
constructor is not part of the repository sources. -/
def createRoot (name rt : Str) (inp md : KV) (tags : List Str) (now : Nat)
    (s : SysState) : Except TraceError (SysState × RunRecord) :=
  if name = [] ∨ rt = [] then .error .InvalidInputError
  else
    let rid := idStr s.nextId
    let r : RunRecord :=
      { id := rid, trace_id := rid, parent_id := none, name := name, run_type := rt,
        inputs := inp, outputs := none, start_time := now, end_time := none,
        metadata := md, tags := tags, dotted_order := segStr now rid }
    .ok ({ s with runs := s.runs ++ [r], nextId := s.nextId + 1 }, r)

/-- Modelled from the spec: `create_child` (§4.1) — inherits the parent's
`trace_id`, sets `parent_id`, and extends the parent's dotted order with a
strictly monotone sibling segment.  The library method is not part of the
repository sources. -/
def createChild (pid : Str) (name rt : Str) (inp : KV) (now : Nat)
    (s : SysState) : Except TraceError (SysState × RunRecord) :=
  match findRun s pid with
  | none => .error .InvalidInputError
  | some p =>
    let t := effTime s pid now
    let rid := idStr s.nextId
    let r : RunRecord :=
      { id := rid, trace_id := p.trace_id, parent_id := some pid, name := name,
        run_type := rt, inputs := inp, outputs := none, start_time := now,
        end_time := none, metadata := [], tags := [],
        dotted_order := p.dotted_order ++ '.' :: segStr t rid }
    .ok ({ runs := s.runs ++ [r], lastChild := (pid, t) :: s.lastChild,
           nextId := s.nextId + 1 }, r)

/-- Modelled from the spec: `end` on a single record (§4.1) — sets outputs
and end time once, fails with `AlreadyEndedError` on a second call.  The
library method is not part of the repository sources. -/
def endRecord (r : RunRecord) (out : KV) (now : Nat) : Except TraceError RunRecord :=
  match r.end_time with
  | some _ => .error .AlreadyEndedError
  | none => .ok { r with outputs := some out, end_time := some now }

/-- Ending a run through the state: look it up, end it, write it back. -/
def endRun (rid : Str) (out : KV) (now : Nat) (s : SysState) :
    Except TraceError (SysState × RunRecord) :=
  match findRun s rid with
  | none => .error .InvalidInputError
  | some r =>
    match endRecord r out now with
    | .error e => .error e
    | .ok r' => .ok ({ s with runs := replaceRun s.runs rid r' }, r')

/-- Modelled from the spec: metadata mutation is allowed only while a run
is open; mutating an ended run is a usage error (§3).  The library setter
is not part of the repository sources. -/
def patchMetadata (rid k v : Str) (s : SysState) :
    Except TraceError (SysState × RunRecord) :=
  match findRun s rid with
  | none => .error .InvalidInputError
  | some r =>
    match r.end_time with
    | some _ => .error .AlreadyEndedError
    | none =>
      let r' := { r with metadata := (k, v) :: r.metadata }
      .ok ({ s with runs := replaceRun s.runs rid r' }, r')

/-- Modelled from the spec: `capture` (§4.2) — a pure snapshot of the
current run's identity plus caller-supplied baggage.  The library helper
(`run_tree.to_headers` internals) is not part of the repository sources. -/
def capture (r : RunRecord) (bag : KV) : TraceContext :=
  ⟨r.trace_id, r.id, r.dotted_order, bag⟩

/-- Modelled from the spec: `attach` (§4.4) — builds a record that behaves
as a child of the remote parent named by the context, and refuses to
fabricate a fresh root when the context fails validation.  The library
construct (`tracing_context(parent=...)`) is not part of the repository
sources. -/
def attachRun (ctx : TraceContext) (name rt : Str) (inp : KV) (now : Nat)
    (s : SysState) : Except TraceError (SysState × RunRecord) :=
  if validCtx ctx then
    let t := effTime s ctx.parent_run_id now
    let rid := idStr s.nextId
    let r : RunRecord :=
      { id := rid, trace_id := ctx.trace_id, parent_id := some ctx.parent_run_id,
        name := name, run_type := rt, inputs := inp, outputs := none,
        start_time := now, end_time := none, metadata := [], tags := [],
        dotted_order := ctx.parent_dotted_order ++ '.' :: segStr t rid }
    .ok ({ runs := s.runs ++ [r], lastChild := (ctx.parent_run_id, t) :: s.lastChild,
           nextId := s.nextId + 1 }, r)
  else .error .MissingParentContextError

/-- One operation of the system: creating roots and children, ending runs,
mutating metadata, and attaching a remote child from a captured context. -/
inductive Cmd where
  | root (name rt : Str) (inp md : KV) (tags : List Str) (now : Nat)
  | child (pid : Str) (name rt : Str) (inp : KV) (now : Nat)
  | endr (rid : Str) (out : KV) (now : Nat)
  | meta (rid k v : Str)
  | attach (src : Str) (bag : KV) (name rt : Str) (inp : KV) (now : Nat)
deriving Repr

/-- Execute one operation; failed operations leave the state unchanged. -/
def exec (c : Cmd) (s : SysState) : SysState :=
  match c with
  | .root n rt i m tg now =>
    match createRoot n rt i m tg now s with
    | .ok (s', _) => s'
    | .error _ => s
  | .child pid n rt i now =>
    match createChild pid n rt i now s with
    | .ok (s', _) => s'
    | .error _ => s
  | .endr rid out now =>
    match endRun rid out now s with
    | .ok (s', _) => s'
    | .error _ => s
  | .meta rid k v =>
    match patchMetadata rid k v s with
    | .ok (s', _) => s'
    | .error _ => s
  | .attach src bag n rt i now =>
    match findRun s src with
    | none => s
    | some r =>
      match attachRun (capture r bag) n rt i now s with
      | .ok (s', _) => s'
      | .error _ => s

/-- Run a sequence of operations from the empty state. -/
def runCmds (cs : List Cmd) : SysState :=
  cs.foldl (fun s c => exec c s) startState

/-! ## Decidable statements of the tree-shape invariants -/

/-- Strict-prefix test on character lists. -/
def strictPrefixB (a b : Str) : Bool :=
  a.isPrefixOf b && decide (a.length < b.length)

/-- Every run with a parent has that parent in the store, and the parent's
dotted order is a strict prefix of the child's. -/
def prefixInvB (s : SysState) : Bool :=
  s.runs.all fun r =>
    match r.parent_id with
    | none => true
    | some pid =>
      match findRun s pid with
      | none => false
      | some p => strictPrefixB p.dotted_order r.dotted_order

/-- Pairwise test over a list in order. -/
def pairwiseB (p : α → α → Bool) : List α → Bool
  | [] => true
  | x :: xs => xs.all (p x) && pairwiseB p xs

/-- Two runs in creation order: when they are siblings, the earlier one has
the strictly lexicographically smaller dotted order. -/
def sibB (a b : RunRecord) : Bool :=
  match a.parent_id, b.parent_id with
  | some p, some q => if p = q then lexLt a.dotted_order b.dotted_order else true
  | _, _ => true

/-- Siblings are strictly ordered by dotted order in creation order. -/
def sibInvB (s : SysState) : Bool :=
  pairwiseB sibB s.runs

/-- Segment-free-of-dots test. -/
def dotFreeB (x : Str) : Bool := x.all (fun c => decide (c ≠ '.'))

/-- Success test for fallible results. -/
def isOkE : Except TraceError α → Bool
  | .ok _ => true
  | .error _ => false

/-- A sample incoming request carrying only the primary identity header. -/
def reqA : Str → Option Str :=
  fun k => if k = primaryKey then some (joinChar ';' [VERSION, ['a'], ['b'], ['0']]) else none

/-- A sample incoming request agreeing with `reqA` on the two trace headers
but carrying an extra unrelated header. -/
def reqB : Str → Option Str :=
  fun k =>
    if k = primaryKey then some (joinChar ';' [VERSION, ['a'], ['b'], ['0']])
    else if k = ['x'] then some ['y'] else none

/-- Field checks of a freshly created root: its own id as trace id, no
parent, dotted order seeded from the given start time. -/
def rootCheck (res : Except TraceError (SysState × RunRecord)) (now : Nat) : Bool :=
  match res with
  | .ok (_, r) =>
    decide (r.trace_id = r.id) && decide (r.parent_id = none) &&
      decide (r.dotted_order = segStr now r.id) && decide (r.start_time = now)
  | .error _ => false

/-- The linkage fields of an attach result: trace id, parent id, dotted
order of the created record. -/
def attachInfo (res : Except TraceError (SysState × RunRecord)) :
    Option (Str × Option Str × Str) :=
  match res with
  | .ok (_, r) => some (r.trace_id, r.parent_id, r.dotted_order)
  | .error _ => none

/-- Projection of a run to the fields the tree-shape invariants read:
identifier, parent identifier, dotted order. -/
def projR (r : RunRecord) : Str × Option Str × Str := (r.id, r.parent_id, r.dotted_order)

/-- Dotted order of the first stored projection with the given identifier. -/
def findDotted (ps : List (Str × Option Str × Str)) (pid : Str) : Option Str :=
  (ps.find? (fun y => decide (y.1 = pid))).map (fun y => y.2.2)

/-- Shape of a stored child projection: its dotted order extends the dotted
order of its parent by one segment whose effective time is positive and
bounded by the recorded per-parent watermark. -/
def childShape (ps : List (Str × Option Str × Str)) (lc : List (Str × Nat))
    (x : Str × Option Str × Str) : Prop :=
  ∀ pid, x.2.1 = some pid →
    ∃ t pd, 1 ≤ t ∧ t ≤ lastOfL lc pid ∧ findDotted ps pid = some pd ∧
      x.2.2 = pd ++ '.' :: segStr t x.1

/-- Creation-ordered sibling projections have strictly increasing dotted
orders. -/
def sibRel (a b : Str × Option Str × Str) : Prop :=
  ∀ pid, a.2.1 = some pid → b.2.1 = some pid → lexLt a.2.2 b.2.2 = true

/-- The inductive invariant of the bookkeeping state: every child extends
its parent's dotted order by a watermark-bounded segment, siblings are
strictly ordered in creation order, and open runs have no outputs. -/
def Inv (s : SysState) : Prop :=
  (∀ x ∈ s.runs.map projR, childShape (s.runs.map projR) s.lastChild x) ∧
  List.Pairwise sibRel (s.runs.map projR) ∧
  (∀ r ∈ s.runs, r.end_time = none → r.outputs = none)

end Tracing

deriving instance DecidableEq for Except

namespace Tracing

/-! ## Lemmas about splitting and joining -/

theorem splitOnChar_ne_nil (c : Char) (x : Str) : splitOnChar c x ≠ [] := by
  induction x with
  | nil => simp [splitOnChar]
  | cons a rest ih =>
    cases h : splitOnChar c rest with
    | nil => simp [splitOnChar, h]
    | cons s ss =>
      simp only [splitOnChar, h]
      split <;> simp

theorem splitOnChar_of_not_mem (c : Char) (x : Str) (h : ∀ a ∈ x, ¬ a = c) :
    splitOnChar c x = [x] := by
  induction x with
  | nil => rfl
  | cons a rest ih =>
    have ha : ¬ a = c := h a (List.mem_cons_self a rest)
    have ih' : splitOnChar c rest = [rest] :=
      ih (fun b hb => h b (List.mem_cons_of_mem a hb))
    simp [splitOnChar, ih', ha]

theorem splitOnChar_append (c : Char) (x rest : Str) (h : ∀ a ∈ x, ¬ a = c) :
    splitOnChar c (x ++ c :: rest) = x :: splitOnChar c rest := by
  induction x with
  | nil =>
    obtain ⟨s, ss, hs⟩ := List.exists_cons_of_ne_nil (splitOnChar_ne_nil c rest)
    simp [splitOnChar, hs]
  | cons a x ih =>
    have ha : ¬ a = c := h a (List.mem_cons_self a x)
    have ih' := ih (fun b hb => h b (List.mem_cons_of_mem a hb))
    simp [splitOnChar, ih', ha]

theorem splitOnChar_joinChar (c : Char) (parts : List Str) (hne : parts ≠ [])
    (h : ∀ p ∈ parts, ∀ a ∈ p, ¬ a = c) :
    splitOnChar c (joinChar c parts) = parts := by
  induction parts with
  | nil => exact absurd rfl hne
  | cons x xs ih =>
    cases xs with
    | nil =>
      simp only [joinChar]
      exact splitOnChar_of_not_mem c x (h x (List.mem_cons_self x []))
    | cons y ys =>
      have hx := h x (List.mem_cons_self x (y :: ys))
      have hrest : ∀ p ∈ y :: ys, ∀ a ∈ p, ¬ a = c :=
        fun p hp => h p (List.mem_cons_of_mem x hp)
      have ih' := ih (by simp) hrest
      simp only [joinChar]
      rw [splitOnChar_append c x (joinChar c (y :: ys)) hx, ih']

theorem splitFirst_append (c : Char) (k v : Str) (h : ∀ a ∈ k, ¬ a = c) :
    splitFirst c (k ++ c :: v) = some (k, v) := by
  induction k with
  | nil => simp [splitFirst]
  | cons a k ih =>
    have ha : ¬ a = c := h a (List.mem_cons_self a k)
    have ih' := ih (fun b hb => h b (List.mem_cons_of_mem a hb))
    simp [splitFirst, ha, ih']

/-! ## Lemmas about the lexicographic order and segments -/

theorem lexLt_append_same (p s t : Str) : lexLt (p ++ s) (p ++ t) = lexLt s t := by
  induction p with
  | nil => rfl
  | cons a p ih =>
    show lexLt (a :: (p ++ s)) (a :: (p ++ t)) = lexLt s t
    simp only [lexLt, Nat.lt_irrefl, if_false]
    exact ih

theorem lexLt_segStr (u v : Str) {m n : Nat} (h : m < n) :
    lexLt (segStr m u) (segStr n v) = true := by
  induction m generalizing n with
  | zero =>
    obtain ⟨k, rfl⟩ := Nat.exists_eq_add_of_lt h
    simp only [segStr, List.replicate, Nat.add_comm, List.replicate_succ,
      List.nil_append, List.cons_append]
    simp [lexLt]
  | succ m ih =>
    cases n with
    | zero => exact absurd h (Nat.not_lt_zero _)
    | succ n =>
      have hmn : m < n := Nat.lt_of_succ_lt_succ h
      simp only [segStr, List.replicate_succ, List.cons_append]
      simpa [lexLt, Nat.lt_irrefl] using ih (n := n) hmn

theorem segStr_not_mem_dot (t : Nat) (n : Nat) : ∀ c ∈ segStr t (idStr n), ¬ c = '.' := by
  intro c hc
  simp only [segStr, idStr, List.mem_append, List.mem_cons, List.mem_replicate] at hc
  rcases hc with ⟨-, rfl⟩ | rfl | rfl | ⟨-, rfl⟩ <;> decide

theorem dotFreeB_segStr (t : Nat) (n : Nat) : dotFreeB (segStr t (idStr n)) = true := by
  rw [dotFreeB, List.all_eq_true]
  intro c hc
  exact decide_eq_true (segStr_not_mem_dot t n c hc)

/-! ## Codec round trip -/

theorem not_semi_of_isIdChar {c : Char} (h : isIdChar c = true) : ¬ c = ';' := by
  intro hc
  subst hc
  exact absurd h (by decide)

theorem not_semi_of_validId {x : Str} (h : isValidId x = true) :
    ∀ a ∈ x, ¬ a = ';' := by
  rw [isValidId, Bool.and_eq_true, List.all_eq_true] at h
  exact fun a ha => not_semi_of_isIdChar (h.2 a ha)

theorem not_semi_of_validDotted {x : Str} (h : isValidDotted x = true) :
    ∀ a ∈ x, ¬ a = ';' := by
  rw [isValidDotted, Bool.and_eq_true, List.all_eq_true] at h
  intro a ha hc
  subst hc
  exact absurd (h.2 _ ha) (by decide)

theorem not_comma_of_hasComma_false {v : Str} (h : hasComma v = false) :
    ∀ a ∈ v, ¬ a = ',' := by
  intro a ha hc
  subst hc
  have : hasComma v = true := List.any_eq_true.mpr ⟨',', ha, by simp⟩
  rw [h] at this
  exact Bool.false_ne_true this

theorem validKV_parts {kv : Str × Str} (h : validKV kv = true) :
    kv.1 ≠ [] ∧ (∀ a ∈ kv.1, isBagKeyChar a = true) ∧ hasComma kv.2 = false := by
  rw [validKV, Bool.and_eq_true, Bool.and_eq_true] at h
  refine ⟨of_decide_eq_true h.1.1, List.all_eq_true.mp h.1.2, ?_⟩
  have := h.2
  simpa using this

theorem renderEntry_not_comma {kv : Str × Str} (h : validKV kv = true) :
    ∀ a ∈ renderEntry kv, ¬ a = ',' := by
  obtain ⟨-, hkey, hval⟩ := validKV_parts h
  intro a ha
  rw [renderEntry] at ha
  rcases List.mem_append.mp ha with hk | hv
  · have := hkey a hk
    rw [isBagKeyChar, Bool.and_eq_true] at this
    exact of_decide_eq_true this.2
  · rcases List.mem_cons.mp hv with rfl | hv'
    · decide
    · exact not_comma_of_hasComma_false hval a hv'

theorem parseEntry_renderEntry {kv : Str × Str} (h : validKV kv = true) :
    parseEntry (renderEntry kv) = .ok kv := by
  obtain ⟨hne, hkey, -⟩ := validKV_parts h
  have hkeq : ∀ a ∈ kv.1, ¬ a = '=' := by
    intro a ha
    have := hkey a ha
    rw [isBagKeyChar, Bool.and_eq_true] at this
    exact of_decide_eq_true this.1
  rw [parseEntry, renderEntry, splitFirst_append '=' kv.1 kv.2 hkeq]
  simp [hne]

theorem parseEntries_map {bag : KV} (h : ∀ kv ∈ bag, validKV kv = true) :
    parseEntries (bag.map renderEntry) = .ok bag := by
  induction bag with
  | nil => rfl
  | cons kv rest ih =>
    have h1 := parseEntry_renderEntry (h kv (List.mem_cons_self kv rest))
    have h2 := ih (fun x hx => h x (List.mem_cons_of_mem kv hx))
    simp [parseEntries, h1, h2]

theorem joinChar_cons_ne_nil {c : Char} {x : Str} (hx : x ≠ []) (xs : List Str) :
    joinChar c (x :: xs) ≠ [] := by
  cases xs with
  | nil => simpa [joinChar] using hx
  | cons y ys =>
    simp only [joinChar]
    intro hcontra
    exact absurd (List.append_eq_nil.mp hcontra).2 (by simp)

theorem parseBaggage_renderBaggage {bag : KV} (h : bag.all validKV = true) :
    parseBaggage (renderBaggage bag) = .ok bag := by
  have hall := List.all_eq_true.mp h
  cases bag with
  | nil => rfl
  | cons kv rest =>
    have hne : renderEntry kv ≠ [] := by
      rw [renderEntry]
      intro hcontra
      exact absurd (List.append_eq_nil.mp hcontra).2 (by simp)
    have hjoin : joinChar ',' ((kv :: rest).map renderEntry) ≠ [] := by
      simp only [List.map_cons]
      exact joinChar_cons_ne_nil hne _
    rw [renderBaggage, parseBaggage, if_neg hjoin]
    rw [splitOnChar_joinChar ',' ((kv :: rest).map renderEntry) (by simp) ?_]
    · exact parseEntries_map hall
    · intro p hp
      obtain ⟨kv', hkv', rfl⟩ := List.mem_map.mp hp
      exact renderEntry_not_comma (hall kv' hkv')

theorem bag_any_comma_false {bag : KV} (h : bag.all validKV = true) :
    (bag.any fun kv => hasComma kv.2) = false := by
  cases hany : bag.any fun kv => hasComma kv.2 with
  | false => rfl
  | true =>
    obtain ⟨kv, hkv, hc⟩ := List.any_eq_true.mp hany
    have := (validKV_parts (List.all_eq_true.mp h kv hkv)).2.2
    rw [this] at hc
    exact absurd hc Bool.false_ne_true

theorem encode_of_valid {ctx : TraceContext} (h : ctx.baggage.all validKV = true) :
    encode ctx = .ok (joinChar ';' [VERSION, ctx.trace_id, ctx.parent_run_id,
      ctx.parent_dotted_order], renderBaggage ctx.baggage) := by
  rw [encode, if_neg]
  rw [bag_any_comma_false h]
  exact Bool.false_ne_true

theorem decodePrimary_join {t pr pdo : Str} (ht : isValidId t = true)
    (hpr : isValidId pr = true) (hpdo : isValidDotted pdo = true) :
    decodePrimary (joinChar ';' [VERSION, t, pr, pdo]) = .ok (t, pr, pdo) := by
  have hfree : ∀ p ∈ [VERSION, t, pr, pdo], ∀ a ∈ p, ¬ a = ';' := by
    intro p hp
    rcases List.mem_cons.mp hp with rfl | hp'
    · decide
    rcases List.mem_cons.mp hp' with rfl | hp''
    · exact not_semi_of_validId ht
    rcases List.mem_cons.mp hp'' with rfl | hp3
    · exact not_semi_of_validId hpr
    rcases List.mem_cons.mp hp3 with rfl | hp4
    · exact not_semi_of_validDotted hpdo
    · exact absurd hp4 (List.not_mem_nil p)
  rw [decodePrimary, splitOnChar_joinChar ';' [VERSION, t, pr, pdo] (by simp) hfree]
  simp [ht, hpr, hpdo]

theorem validCtx_parts {ctx : TraceContext} (h : validCtx ctx = true) :
    isValidId ctx.trace_id = true ∧ isValidId ctx.parent_run_id = true ∧
      isValidDotted ctx.parent_dotted_order = true ∧ ctx.baggage.all validKV = true := by
  rw [validCtx, Bool.and_eq_true, Bool.and_eq_true, Bool.and_eq_true] at h
  exact ⟨h.1.1.1, h.1.1.2, h.1.2, h.2⟩

theorem decode_encode_valid {ctx : TraceContext} (h : validCtx ctx = true) :
    roundTrip ctx = .ok ctx := by
  obtain ⟨h1, h2, h3, h4⟩ := validCtx_parts h
  obtain ⟨tid, prid, pdo, bag⟩ := ctx
  rw [roundTrip, encode_of_valid h4]
  have hk : ¬ (baggageKey = primaryKey) := by decide
  simp [decodeFields, headersOf, decode, hk, decodePrimary_join h1 h2 h3,
    parseBaggage_renderBaggage h4]

/-! ## Claim C1 -/

/-- C1: for every valid TraceContext ctx, including one with empty baggage,
decoding the header mapping produced by encoding ctx yields a TraceContext
equal to ctx: decode(encode(ctx)) == ctx. -/
theorem claim_roundtrip_decode_encode (ctx : TraceContext) (h : validCtx ctx = true) :
    roundTrip ctx = .ok ctx :=
  decode_encode_valid h

/-- Witness for C1 at a concrete context whose baggage mapping is empty. -/
theorem claim_roundtrip_decode_encode_witness :
    validCtx ⟨['a'], ['b'], ['0'], []⟩ = true ∧
      roundTrip ⟨['a'], ['b'], ['0'], []⟩ = .ok ⟨['a'], ['b'], ['0'], []⟩ :=
  ⟨by decide, claim_roundtrip_decode_encode ⟨['a'], ['b'], ['0'], []⟩ (by decide)⟩

/-! ## Claim C6 -/

/-- C6: decode fails with MalformedContextError when the primary identity
field is absent, carries an unrecognized version tag, or has components
that do not parse as valid identifiers; a missing baggage field alone
decodes to a TraceContext with empty baggage. -/
theorem claim_decode_error_conditions :
    (∀ b? : Option Str, decode none b? = .error .MalformedContextError) ∧
    (∀ v t pr pdo : Str, ∀ b? : Option Str,
      (∀ p ∈ [v, t, pr, pdo], ∀ a ∈ p, ¬ a = ';') → ¬ v = VERSION →
      decode (some (joinChar ';' [v, t, pr, pdo])) b? = .error .MalformedContextError) ∧
    (∀ t pr pdo : Str, ∀ b? : Option Str,
      (∀ p ∈ [VERSION, t, pr, pdo], ∀ a ∈ p, ¬ a = ';') →
      (isValidId t && isValidId pr && isValidDotted pdo) = false →
      decode (some (joinChar ';' [VERSION, t, pr, pdo])) b? = .error .MalformedContextError) ∧
    (∀ p t pr pdo : Str, decodePrimary p = .ok (t, pr, pdo) →
      decode (some p) none = .ok ⟨t, pr, pdo, []⟩) := by
  refine ⟨fun b? => rfl, ?_, ?_, ?_⟩
  · intro v t pr pdo b? hfree hv
    have hsplit := splitOnChar_joinChar ';' [v, t, pr, pdo] (by simp) hfree
    simp [decode, decodePrimary, hsplit, hv]
  · intro t pr pdo b? hfree hchecks
    have hsplit := splitOnChar_joinChar ';' [VERSION, t, pr, pdo] (by simp) hfree
    simp [decode, decodePrimary, hsplit, hchecks]
  · intro p t pr pdo h
    simp [decode, h]

/-- Witness for C6: a missing primary field, an unknown version tag, an
unparseable component, and a missing baggage field, each at concrete
inputs. -/
theorem claim_decode_error_conditions_witness :
    decode none none = .error .MalformedContextError ∧
    decode (some (joinChar ';' [['x'], ['a'], ['b'], ['0']])) none =
      .error .MalformedContextError ∧
    decode (some (joinChar ';' [VERSION, [], ['b'], ['0']])) none =
      .error .MalformedContextError ∧
    decode (some (joinChar ';' [VERSION, ['a'], ['b'], ['0']])) none =
      .ok ⟨['a'], ['b'], ['0'], []⟩ :=
  ⟨claim_decode_error_conditions.1 none,
   claim_decode_error_conditions.2.1 ['x'] ['a'] ['b'] ['0'] none (by decide) (by decide),
   claim_decode_error_conditions.2.2.1 [] ['b'] ['0'] none (by decide) (by decide),
   claim_decode_error_conditions.2.2.2 (joinChar ';' [VERSION, ['a'], ['b'], ['0']])
     ['a'] ['b'] ['0'] (by decide)⟩

/-! ## Claim C7 -/

/-- C7: encode fails with EncodingError exactly when some baggage value
contains the reserved pair delimiter; when all baggage values are free of
the delimiter, encode succeeds. -/
theorem claim_encode_delimiter_policy (ctx : TraceContext) :
    ((ctx.baggage.any fun kv => hasComma kv.2) = true →
      encode ctx = .error .EncodingError) ∧
    ((ctx.baggage.any fun kv => hasComma kv.2) = false →
      isOkE (encode ctx) = true) := by
  constructor
  · intro h
    simp [encode, h]
  · intro h
    simp [encode, h, isOkE]

/-- Witness for C7: a baggage value containing the delimiter is rejected;
a delimiter-free baggage is encoded. -/
theorem claim_encode_delimiter_policy_witness :
    ((TraceContext.mk ['a'] ['b'] ['0'] [(['k'], [','])]).baggage.any
        fun kv => hasComma kv.2) = true ∧
    encode ⟨['a'], ['b'], ['0'], [(['k'], [','])]⟩ = .error .EncodingError ∧
    ((TraceContext.mk ['a'] ['b'] ['0'] [(['k'], ['w'])]).baggage.any
        fun kv => hasComma kv.2) = false ∧
    isOkE (encode ⟨['a'], ['b'], ['0'], [(['k'], ['w'])]⟩) = true :=
  ⟨by decide,
   (claim_encode_delimiter_policy ⟨['a'], ['b'], ['0'], [(['k'], [','])]⟩).1 (by decide),
   by decide,
   (claim_encode_delimiter_policy ⟨['a'], ['b'], ['0'], [(['k'], ['w'])]⟩).2 (by decide)⟩

/-! ## Claim C10 -/

/-- C10: the receiving-side attach endpoint depends only on the two header
fields named langsmith-trace and baggage: two requests agreeing on those
two headers produce identical decoded parent contexts, whatever other
headers they carry. -/
theorem claim_server_reads_only_trace_headers (h1 h2 : Str → Option Str)
    (ha : h1 primaryKey = h2 primaryKey) (hb : h1 baggageKey = h2 baggageKey) :
    serverParentCtx h1 = serverParentCtx h2 := by
  simp only [serverParentCtx, parentHeaders]
  rw [ha, hb]

/-- Witness for C10 on two concrete requests that differ in an unrelated
header. -/
theorem claim_server_reads_only_trace_headers_witness :
    reqA primaryKey = reqB primaryKey ∧ reqA baggageKey = reqB baggageKey ∧
      serverParentCtx reqA = serverParentCtx reqB :=
  ⟨by decide, by decide,
   claim_server_reads_only_trace_headers reqA reqB (by decide) (by decide)⟩

/-! ## Support lemmas for the bookkeeping invariant -/

theorem findDotted_append_of_some {ps : List (Str × Option Str × Str)} {pid : Str}
    {pd : Str} (h : findDotted ps pid = some pd) (qs : List (Str × Option Str × Str)) :
    findDotted (ps ++ qs) pid = some pd := by
  rw [findDotted] at h ⊢
  obtain ⟨y, hy, hmap⟩ := Option.map_eq_some'.mp h
  rw [List.find?_append, hy]
  simp [hmap]

theorem lastOfL_cons_self (lc : List (Str × Nat)) (pid : Str) (t : Nat) :
    lastOfL ((pid, t) :: lc) pid = t := by
  simp [lastOfL, List.find?_cons]

theorem lastOfL_cons_ne (lc : List (Str × Nat)) {pid q : Str} (t : Nat)
    (h : ¬ q = pid) : lastOfL ((pid, t) :: lc) q = lastOfL lc q := by
  have h' : ¬ pid = q := fun hh => h hh.symm
  simp [lastOfL, List.find?_cons, h']

theorem findDotted_map (s : SysState) (pid : Str) :
    findDotted (s.runs.map projR) pid = (findRun s pid).map (fun r => r.dotted_order) := by
  rw [findDotted, findRun, List.find?_map, Option.map_map]
  rfl

theorem replaceRun_map_projR {l : List RunRecord} {rid : Str} {r0 r' : RunRecord}
    (hfind : l.find? (fun r => decide (r.id = rid)) = some r0)
    (hproj : projR r' = projR r0) :
    (replaceRun l rid r').map projR = l.map projR := by
  induction l with
  | nil => simp at hfind
  | cons x xs ih =>
    by_cases hx : x.id = rid
    · simp only [List.find?_cons, decide_eq_true hx] at hfind
      have hx0 : x = r0 := by injection hfind
      subst hx0
      simp [replaceRun, hx, hproj]
    · simp only [List.find?_cons, decide_eq_false hx] at hfind
      simp [replaceRun, hx, ih hfind]

theorem mem_replaceRun {l : List RunRecord} {rid : Str} {r' x : RunRecord}
    (hx : x ∈ replaceRun l rid r') : x = r' ∨ x ∈ l := by
  induction l with
  | nil => simp [replaceRun] at hx
  | cons h t ih =>
    by_cases hh : h.id = rid
    · rw [replaceRun, if_pos hh] at hx
      rcases List.mem_cons.mp hx with rfl | hx'
      · exact Or.inl rfl
      · exact Or.inr (List.mem_cons_of_mem h hx')
    · rw [replaceRun, if_neg hh] at hx
      rcases List.mem_cons.mp hx with rfl | hx'
      · exact Or.inr (List.mem_cons_self x t)
      · rcases ih hx' with h1 | h2
        · exact Or.inl h1
        · exact Or.inr (List.mem_cons_of_mem h h2)

theorem mem_replaceRun_of_mem {l : List RunRecord} (rid : Str) (r' : RunRecord)
    {x : RunRecord} (hx : x ∈ l) :
    x ∈ replaceRun l rid r' ∨ l.find? (fun y => decide (y.id = rid)) = some x := by
  induction l with
  | nil => simp at hx
  | cons h t ih =>
    by_cases hh : h.id = rid
    · rcases List.mem_cons.mp hx with rfl | hx'
      · exact Or.inr (by simp [List.find?_cons, decide_eq_true hh])
      · exact Or.inl (by rw [replaceRun, if_pos hh]; exact List.mem_cons_of_mem r' hx')
    · rcases List.mem_cons.mp hx with rfl | hx'
      · exact Or.inl (by rw [replaceRun, if_neg hh]; exact List.mem_cons_self x _)
      · rcases ih hx' with h1 | h2
        · exact Or.inl (by rw [replaceRun, if_neg hh]; exact List.mem_cons_of_mem h h1)
        · exact Or.inr (by simp [List.find?_cons, decide_eq_false hh, h2])

/-! ## Preservation of the invariant by each operation -/

theorem inv_append_root {s : SysState} (h : Inv s) {nc : RunRecord}
    (hpar : nc.parent_id = none) (hout : nc.outputs = none) (n : Nat) :
    Inv ⟨s.runs ++ [nc], s.lastChild, n⟩ := by
  rw [Inv] at h ⊢
  obtain ⟨h1, h2, h3⟩ := h
  refine ⟨?_, ?_, ?_⟩
  · simp only [List.map_append, List.map_cons, List.map_nil]
    intro x hx
    rcases List.mem_append.mp hx with hold | hnew
    · intro pid hpid
      obtain ⟨t, pd, ht1, ht2, hfd, heq⟩ := h1 x hold pid hpid
      exact ⟨t, pd, ht1, ht2, findDotted_append_of_some hfd _, heq⟩
    · rw [List.mem_singleton] at hnew
      subst hnew
      intro pid hpid
      rw [show (projR nc).2.1 = nc.parent_id from rfl, hpar] at hpid
      exact absurd hpid (by simp)
  · simp only [List.map_append, List.map_cons, List.map_nil]
    refine List.pairwise_append.mpr ⟨h2, List.pairwise_singleton _ _, ?_⟩
    intro a ha b hb pid hpa hpb
    rw [List.mem_singleton] at hb
    subst hb
    rw [show (projR nc).2.1 = nc.parent_id from rfl, hpar] at hpb
    exact absurd hpb (by simp)
  · intro r hr
    rcases List.mem_append.mp hr with hold | hnew
    · exact h3 r hold
    · rw [List.mem_singleton] at hnew
      subst hnew
      intro _
      exact hout

theorem inv_append_child {s : SysState} (h : Inv s) {pid : Str} {p : RunRecord}
    (hfind : findRun s pid = some p) {nc : RunRecord} {t : Nat}
    (hpar : nc.parent_id = some pid)
    (hdo : nc.dotted_order = p.dotted_order ++ '.' :: segStr t nc.id)
    (ht : lastOf s pid + 1 ≤ t) (hout : nc.outputs = none) (n : Nat) :
    Inv ⟨s.runs ++ [nc], (pid, t) :: s.lastChild, n⟩ := by
  rw [Inv] at h ⊢
  obtain ⟨h1, h2, h3⟩ := h
  have hfd : findDotted (s.runs.map projR) pid = some p.dotted_order := by
    rw [findDotted_map, hfind]
    rfl
  have ht1 : 1 ≤ t := le_trans (Nat.succ_le_succ (Nat.zero_le _)) ht
  refine ⟨?_, ?_, ?_⟩
  · simp only [List.map_append, List.map_cons, List.map_nil]
    intro x hx
    rcases List.mem_append.mp hx with hold | hnew
    · intro q hq
      obtain ⟨t', pd, ht1', ht2', hfd', heq⟩ := h1 x hold q hq
      refine ⟨t', pd, ht1', ?_, findDotted_append_of_some hfd' _, heq⟩
      by_cases hqp : q = pid
      · subst hqp
        rw [show lastOfL ((q, t) :: s.lastChild) q = t from lastOfL_cons_self _ _ _]
        exact le_trans ht2' (le_trans (Nat.le_succ _) ht)
      · rw [lastOfL_cons_ne _ _ hqp]
        exact ht2'
    · rw [List.mem_singleton] at hnew
      subst hnew
      intro q hq
      rw [show (projR nc).2.1 = nc.parent_id from rfl, hpar] at hq
      have hq' : pid = q := by simpa using hq
      subst hq'
      refine ⟨t, p.dotted_order, ht1, ?_, findDotted_append_of_some hfd _, ?_⟩
      · rw [lastOfL_cons_self]
      · rw [show (projR nc).2.2 = nc.dotted_order from rfl,
          show (projR nc).1 = nc.id from rfl]
        exact hdo
  · simp only [List.map_append, List.map_cons, List.map_nil]
    refine List.pairwise_append.mpr ⟨h2, List.pairwise_singleton _ _, ?_⟩
    intro a ha b hb q hpa hpb
    rw [List.mem_singleton] at hb
    subst hb
    rw [show (projR nc).2.1 = nc.parent_id from rfl, hpar] at hpb
    have hq : pid = q := by simpa using hpb
    subst hq
    obtain ⟨t', pd, -, ht2', hfd', heq⟩ := h1 a ha pid hpa
    have hpd : pd = p.dotted_order := Option.some.inj (hfd'.symm.trans hfd)
    rw [show (projR nc).2.2 = nc.dotted_order from rfl, heq, hpd, hdo]
    have e1 : p.dotted_order ++ '.' :: segStr t' a.1 =
        (p.dotted_order ++ ['.']) ++ segStr t' a.1 := by simp
    have e2 : p.dotted_order ++ '.' :: segStr t nc.id =
        (p.dotted_order ++ ['.']) ++ segStr t nc.id := by simp
    rw [e1, e2, lexLt_append_same]
    exact lexLt_segStr _ _ (lt_of_le_of_lt ht2' (Nat.lt_of_succ_le ht))
  · intro r hr
    rcases List.mem_append.mp hr with hold | hnew
    · exact h3 r hold
    · rw [List.mem_singleton] at hnew
      subst hnew
      intro _
      exact hout

theorem inv_replace {s : SysState} (h : Inv s) {rid : Str} {r0 r' : RunRecord}
    (hfind : findRun s rid = some r0) (hproj : projR r' = projR r0)
    (hout : r'.end_time = none → r'.outputs = none) :
    Inv { s with runs := replaceRun s.runs rid r' } := by
  rw [Inv] at h ⊢
  obtain ⟨h1, h2, h3⟩ := h
  have hm : (replaceRun s.runs rid r').map projR = s.runs.map projR :=
    replaceRun_map_projR hfind hproj
  refine ⟨?_, ?_, ?_⟩
  · intro x hx
    rw [show ({ s with runs := replaceRun s.runs rid r' } : SysState).runs =
      replaceRun s.runs rid r' from rfl, hm] at hx ⊢
    exact h1 x hx
  · rw [show ({ s with runs := replaceRun s.runs rid r' } : SysState).runs =
      replaceRun s.runs rid r' from rfl, hm]
    exact h2
  · intro r hr hrend
    rcases mem_replaceRun hr with rfl | hmem
    · exact hout hrend
    · exact h3 r hmem hrend

theorem inv_createRoot {s : SysState} (h : Inv s) {name rt : Str} {inp md : KV}
    {tags : List Str} {now : Nat} {s' : SysState} {r : RunRecord}
    (hc : createRoot name rt inp md tags now s = .ok (s', r)) : Inv s' := by
  rw [createRoot] at hc
  split at hc
  · exact absurd hc (by simp)
  · simp only [Except.ok.injEq, Prod.mk.injEq] at hc
    obtain ⟨rfl, rfl⟩ := hc
    exact inv_append_root h rfl rfl _

theorem inv_createChild {s : SysState} (h : Inv s) {pid name rt : Str} {inp : KV}
    {now : Nat} {s' : SysState} {r : RunRecord}
    (hc : createChild pid name rt inp now s = .ok (s', r)) : Inv s' := by
  rw [createChild] at hc
  cases hf : findRun s pid with
  | none =>
    simp only [hf] at hc
    exact Except.noConfusion hc
  | some p =>
    simp only [hf, Except.ok.injEq, Prod.mk.injEq] at hc
    obtain ⟨rfl, rfl⟩ := hc
    exact inv_append_child h hf rfl rfl (le_max_right _ _) rfl _

theorem inv_attachFromRun {s : SysState} (h : Inv s) {src : Str} {r0 : RunRecord}
    {bag : KV} {name rt : Str} {inp : KV} {now : Nat} {s' : SysState} {r : RunRecord}
    (hsrc : findRun s src = some r0)
    (hc : attachRun (capture r0 bag) name rt inp now s = .ok (s', r)) : Inv s' := by
  have hid : r0.id = src := by
    rw [findRun] at hsrc
    simpa using List.find?_some hsrc
  have hfind : findRun s r0.id = some r0 := by rw [hid]; exact hsrc
  rw [attachRun] at hc
  split at hc
  · simp only [Except.ok.injEq, Prod.mk.injEq] at hc
    obtain ⟨rfl, rfl⟩ := hc
    exact inv_append_child h hfind rfl rfl (le_max_right _ _) rfl _
  · exact absurd hc (by simp)

theorem inv_endRun {s : SysState} (h : Inv s) {rid : Str} {out : KV} {now : Nat}
    {s' : SysState} {r' : RunRecord}
    (hc : endRun rid out now s = .ok (s', r')) : Inv s' := by
  rw [endRun] at hc
  cases hf : findRun s rid with
  | none =>
    simp only [hf] at hc
    exact Except.noConfusion hc
  | some r0 =>
    simp only [hf] at hc
    cases he : endRecord r0 out now with
    | error e =>
      simp only [he] at hc
      exact Except.noConfusion hc
    | ok r1 =>
      simp only [he, Except.ok.injEq, Prod.mk.injEq] at hc
      obtain ⟨rfl, rfl⟩ := hc
      rw [endRecord] at he
      cases ht : r0.end_time with
      | some t0 =>
        simp only [ht] at he
        exact Except.noConfusion he
      | none =>
        simp only [ht, Except.ok.injEq] at he
        subst he
        refine inv_replace h hf rfl ?_
        intro hend
        exact absurd hend (by simp)

theorem inv_patchMetadata {s : SysState} (h : Inv s) {rid k v : Str}
    {s' : SysState} {r' : RunRecord}
    (hc : patchMetadata rid k v s = .ok (s', r')) : Inv s' := by
  rw [patchMetadata] at hc
  cases hf : findRun s rid with
  | none =>
    simp only [hf] at hc
    exact Except.noConfusion hc
  | some r0 =>
    simp only [hf] at hc
    cases ht : r0.end_time with
    | some t0 =>
      simp only [ht] at hc
      exact Except.noConfusion hc
    | none =>
      simp only [ht, Except.ok.injEq, Prod.mk.injEq] at hc
      obtain ⟨rfl, rfl⟩ := hc
      refine inv_replace h hf rfl ?_
      intro _
      rw [Inv] at h
      exact h.2.2 r0 (List.mem_of_find?_eq_some hf) ht

theorem inv_exec (c : Cmd) (s : SysState) (h : Inv s) : Inv (exec c s) := by
  cases c with
  | root n rt i m tg now =>
    cases hc : createRoot n rt i m tg now s with
    | error e => simpa [exec, hc] using h
    | ok pr =>
      obtain ⟨s', r⟩ := pr
      simp only [exec, hc]
      exact inv_createRoot h hc
  | child pid n rt i now =>
    cases hc : createChild pid n rt i now s with
    | error e => simpa [exec, hc] using h
    | ok pr =>
      obtain ⟨s', r⟩ := pr
      simp only [exec, hc]
      exact inv_createChild h hc
  | endr rid out now =>
    cases hc : endRun rid out now s with
    | error e => simpa [exec, hc] using h
    | ok pr =>
      obtain ⟨s', r⟩ := pr
      simp only [exec, hc]
      exact inv_endRun h hc
  | meta rid k v =>
    cases hc : patchMetadata rid k v s with
    | error e => simpa [exec, hc] using h
    | ok pr =>
      obtain ⟨s', r⟩ := pr
      simp only [exec, hc]
      exact inv_patchMetadata h hc
  | attach src bag n rt i now =>
    cases hf : findRun s src with
    | none => simpa [exec, hf] using h
    | some r0 =>
      cases hc : attachRun (capture r0 bag) n rt i now s with
      | error e => simpa [exec, hf, hc] using h
      | ok pr =>
        obtain ⟨s', r⟩ := pr
        simp only [exec, hf, hc]
        exact inv_attachFromRun h hf hc

theorem inv_startState : Inv startState := by
  rw [Inv]
  refine ⟨?_, ?_, ?_⟩ <;> simp [startState]

theorem inv_runCmds (cs : List Cmd) : Inv (runCmds cs) := by
  rw [runCmds]
  have aux : ∀ (l : List Cmd) (s : SysState), Inv s →
      Inv (l.foldl (fun s c => exec c s) s) := by
    intro l
    induction l with
    | nil => intro s hs; exact hs
    | cons c l ih => intro s hs; exact ih _ (inv_exec c s hs)
  exact aux cs startState inv_startState

theorem pairwiseB_eq_true_of {q : α → α → Bool} {S : α → α → Prop}
    (himp : ∀ a b, S a b → q a b = true) :
    ∀ {l : List α}, List.Pairwise S l → pairwiseB q l = true := by
  intro l hl
  induction hl with
  | nil => rfl
  | cons hhead htail ih =>
    rw [pairwiseB, Bool.and_eq_true]
    exact ⟨List.all_eq_true.mpr (fun b hb => himp _ _ (hhead b hb)), ih⟩

theorem ended_mem_exec (c : Cmd) (s : SysState) {r : RunRecord}
    (hr : r ∈ s.runs) (hend : ¬ r.end_time = none) : r ∈ (exec c s).runs := by
  cases c with
  | root n rt i m tg now =>
    cases hc : createRoot n rt i m tg now s with
    | error e => simpa [exec, hc] using hr
    | ok pr =>
      obtain ⟨s', nr⟩ := pr
      simp only [exec, hc]
      rw [createRoot] at hc
      split at hc
      · exact absurd hc (by simp)
      · simp only [Except.ok.injEq, Prod.mk.injEq] at hc
        obtain ⟨rfl, rfl⟩ := hc
        exact List.mem_append_left _ hr
  | child pid n rt i now =>
    cases hc : createChild pid n rt i now s with
    | error e => simpa [exec, hc] using hr
    | ok pr =>
      obtain ⟨s', nr⟩ := pr
      simp only [exec, hc]
      rw [createChild] at hc
      cases hf : findRun s pid with
      | none =>
        simp only [hf] at hc
        exact Except.noConfusion hc
      | some p =>
        simp only [hf, Except.ok.injEq, Prod.mk.injEq] at hc
        obtain ⟨rfl, rfl⟩ := hc
        exact List.mem_append_left _ hr
  | endr rid out now =>
    cases hc : endRun rid out now s with
    | error e => simpa [exec, hc] using hr
    | ok pr =>
      obtain ⟨s', r1⟩ := pr
      simp only [exec, hc]
      rw [endRun] at hc
      cases hf : findRun s rid with
      | none =>
        simp only [hf] at hc
        exact Except.noConfusion hc
      | some r0 =>
        simp only [hf] at hc
        cases he : endRecord r0 out now with
        | error e =>
          simp only [he] at hc
          exact Except.noConfusion hc
        | ok r2 =>
          simp only [he, Except.ok.injEq, Prod.mk.injEq] at hc
          obtain ⟨rfl, rfl⟩ := hc
          rw [endRecord] at he
          cases ht : r0.end_time with
          | some t0 =>
            simp only [ht] at he
            exact Except.noConfusion he
          | none =>
            refine (mem_replaceRun_of_mem rid _ hr).elim (fun hin => hin) (fun hfound => ?_)
            have hr0 : r = r0 := by
              rw [findRun] at hf
              exact Option.some.inj (hfound.symm.trans hf)
            subst hr0
            exact absurd ht hend
  | meta rid k v =>
    cases hc : patchMetadata rid k v s with
    | error e => simpa [exec, hc] using hr
    | ok pr =>
      obtain ⟨s', r1⟩ := pr
      simp only [exec, hc]
      rw [patchMetadata] at hc
      cases hf : findRun s rid with
      | none =>
        simp only [hf] at hc
        exact Except.noConfusion hc
      | some r0 =>
        simp only [hf] at hc
        cases ht : r0.end_time with
        | some t0 =>
          simp only [ht] at hc
          exact Except.noConfusion hc
        | none =>
          simp only [ht, Except.ok.injEq, Prod.mk.injEq] at hc
          obtain ⟨rfl, rfl⟩ := hc
          refine (mem_replaceRun_of_mem rid _ hr).elim (fun hin => hin) (fun hfound => ?_)
          have hr0 : r = r0 := by
            rw [findRun] at hf
            exact Option.some.inj (hfound.symm.trans hf)
          subst hr0
          exact absurd ht hend
  | attach src bag n rt i now =>
    cases hf : findRun s src with
    | none => simpa [exec, hf] using hr
    | some r0 =>
      cases hc : attachRun (capture r0 bag) n rt i now s with
      | error e => simpa [exec, hf, hc] using hr
      | ok pr =>
        obtain ⟨s', nr⟩ := pr
        simp only [exec, hf, hc]
        rw [attachRun] at hc
        split at hc
        · simp only [Except.ok.injEq, Prod.mk.injEq] at hc
          obtain ⟨rfl, rfl⟩ := hc
          exact List.mem_append_left _ hr
        · exact absurd hc (by simp)

/-! ## Claim C3 -/

/-- C3: every run created with a parent (by create_child or attach from a
captured context) has the parent's dotted order as a strict prefix of its
own, and this holds in the state reached after any sequence of
operations. -/
theorem claim_parent_dotted_order_strict_prefix (cs : List Cmd) :
    prefixInvB (runCmds cs) = true := by
  have h := inv_runCmds cs
  rw [Inv] at h
  obtain ⟨h1, -, -⟩ := h
  rw [prefixInvB, List.all_eq_true]
  intro r hr
  cases hpar : r.parent_id with
  | none => simp [hpar]
  | some pid =>
    have hx : projR r ∈ (runCmds cs).runs.map projR := List.mem_map_of_mem projR hr
    obtain ⟨t, pd, -, -, hfd, heq⟩ := h1 (projR r) hx pid
      (by rw [show (projR r).2.1 = r.parent_id from rfl, hpar])
    rw [findDotted_map] at hfd
    obtain ⟨p, hp, hpd⟩ := Option.map_eq_some'.mp hfd
    simp only [hpar, hp]
    rw [strictPrefixB, Bool.and_eq_true]
    have heq' : r.dotted_order = pd ++ '.' :: segStr t r.id := heq
    have hpd' : p.dotted_order = pd := hpd
    constructor
    · rw [List.isPrefixOf_iff_prefix, heq', hpd']
      exact List.prefix_append _ _
    · rw [decide_eq_true_eq, heq', hpd', List.length_append]
      simp

/-! ## Claim C4 -/

/-- C4: for every parent, sibling runs created under it compare strictly in
creation order by lexicographic dotted order, in the state reached after
any sequence of operations (concurrent creation is modelled as an
arbitrary interleaving of the atomic create operations), so creation order
is reconstructible from the flat set of records alone. -/
theorem claim_sibling_order_matches_creation (cs : List Cmd) :
    sibInvB (runCmds cs) = true := by
  have h := inv_runCmds cs
  rw [Inv] at h
  obtain ⟨-, h2, -⟩ := h
  rw [sibInvB]
  rw [List.pairwise_map] at h2
  refine pairwiseB_eq_true_of ?_ h2
  intro a b hS
  cases hpa : a.parent_id with
  | none => simp [sibB, hpa]
  | some p =>
    cases hpb : b.parent_id with
    | none => simp [sibB, hpa, hpb]
    | some q =>
      simp only [sibB, hpa, hpb]
      by_cases hpq : p = q
      · subst hpq
        rw [if_pos rfl]
        exact hS p (by rw [show (projR a).2.1 = a.parent_id from rfl, hpa])
          (by rw [show (projR b).2.1 = b.parent_id from rfl, hpb])
      · rw [if_neg hpq]

/-! ## Claim C5 -/

/-- C5: ending an open run sets its outputs and end time; ending an ended
run fails with AlreadyEndedError; an ended run is never modified by any
further operation; and the outputs of a run that has not ended read as
not-yet-available (none) rather than a stale value. -/
theorem claim_end_once_then_immutable :
    (∀ (r : RunRecord) (out : KV) (now : Nat), r.end_time = none →
      endRecord r out now = .ok { r with outputs := some out, end_time := some now }) ∧
    (∀ (r : RunRecord) (out : KV) (now t0 : Nat), r.end_time = some t0 →
      endRecord r out now = .error .AlreadyEndedError) ∧
    (∀ (cs : List Cmd) (c : Cmd) (r : RunRecord), r ∈ (runCmds cs).runs →
      ¬ r.end_time = none → r ∈ (exec c (runCmds cs)).runs) ∧
    (∀ (cs : List Cmd) (r : RunRecord), r ∈ (runCmds cs).runs →
      r.end_time = none → r.outputs = none) := by
  refine ⟨?_, ?_, ?_, ?_⟩
  · intro r out now h
    rw [endRecord, h]
  · intro r out now t0 h
    rw [endRecord, h]
  · intro cs c r hr hend
    exact ended_mem_exec c _ hr hend
  · intro cs r hr hopen
    have h := inv_runCmds cs
    rw [Inv] at h
    exact h.2.2 r hr hopen

/-- Witness for C5: a concrete open run ends once; the ended run rejects a
second end; the ended run survives a further end attempt unchanged; the
open root of a one-command history has no outputs. -/
theorem claim_end_once_then_immutable_witness :
    endRecord ⟨['0'], ['0'], none, ['r'], ['c'], [], none, 0, none, [], [], ['0', '0']⟩ [] 3 =
      .ok { (⟨['0'], ['0'], none, ['r'], ['c'], [], none, 0, none, [], [], ['0', '0']⟩ :
        RunRecord) with outputs := some [], end_time := some 3 } ∧
    endRecord ⟨['0'], ['0'], none, ['r'], ['c'], [], some [], 0, some 1, [], [], ['0', '0']⟩
      [] 4 = .error .AlreadyEndedError ∧
    (⟨['0'], ['0'], none, ['r'], ['c'], [], some [], 0, some 1, [], [], ['0', '0']⟩ :
      RunRecord) ∈ (exec (.endr ['0'] [] 9)
        (runCmds [.root ['r'] ['c'] [] [] [] 0, .endr ['0'] [] 1])).runs ∧
    (⟨['0'], ['0'], none, ['r'], ['c'], [], none, 0, none, [], [], ['0', '0']⟩ :
      RunRecord).outputs = none :=
  ⟨claim_end_once_then_immutable.1 _ [] 3 (by decide),
   claim_end_once_then_immutable.2.1 _ [] 4 1 (by decide),
   claim_end_once_then_immutable.2.2.1 [.root ['r'] ['c'] [] [] [] 0, .endr ['0'] [] 1]
     (.endr ['0'] [] 9) _ (by decide) (by decide),
   claim_end_once_then_immutable.2.2.2 [.root ['r'] ['c'] [] [] [] 0] _ (by decide) (by decide)⟩

/-! ## Claim C9 -/

/-- C9: create_root returns a root whose trace id equals its own id, whose
parent id is none, and whose dotted order is seeded from the start time;
it fails with InvalidInputError when the name or the run type is empty. -/
theorem claim_create_root_contract (name rt : Str) (inp md : KV) (tags : List Str)
    (now : Nat) (s : SysState) :
    (¬ name = [] → ¬ rt = [] →
      rootCheck (createRoot name rt inp md tags now s) now = true) ∧
    (name = [] ∨ rt = [] →
      createRoot name rt inp md tags now s = .error .InvalidInputError) := by
  constructor
  · intro h1 h2
    have hcond : ¬ (name = [] ∨ rt = []) := by
      rintro (h | h)
      · exact h1 h
      · exact h2 h
    rw [createRoot, if_neg hcond, rootCheck]
    simp
  · intro h
    rw [createRoot, if_pos h]

/-- Witness for C9: a concrete nonempty creation succeeds with the right
fields, and an empty name is rejected. -/
theorem claim_create_root_contract_witness :
    rootCheck (createRoot ['r'] ['c'] [] [] [] 5 startState) 5 = true ∧
      createRoot [] ['c'] [] [] [] 5 startState = .error .InvalidInputError :=
  ⟨(claim_create_root_contract ['r'] ['c'] [] [] [] 5 startState).1
      (by decide) (by decide),
   (claim_create_root_contract [] ['c'] [] [] [] 5 startState).2 (Or.inl rfl)⟩

/-! ## Claim C8 -/

/-- C8: attach on a context that fails validation refuses to create any
run and fails with MissingParentContextError instead of fabricating a
fresh trace root. -/
theorem claim_attach_rejects_invalid_context (ctx : TraceContext) (name rt : Str)
    (inp : KV) (now : Nat) (s : SysState) (h : validCtx ctx = false) :
    attachRun ctx name rt inp now s = .error .MissingParentContextError := by
  rw [attachRun, if_neg]
  rw [h]
  exact Bool.false_ne_true

/-- Witness for C8 at a concrete invalid context (empty identifiers). -/
theorem claim_attach_rejects_invalid_context_witness :
    validCtx ⟨[], [], [], []⟩ = false ∧
      attachRun ⟨[], [], [], []⟩ ['n'] ['c'] [] 0 startState =
        .error .MissingParentContextError :=
  ⟨by decide,
   claim_attach_rejects_invalid_context ⟨[], [], [], []⟩ ['n'] ['c'] [] 0 startState
     (by decide)⟩

/-! ## Claim C2 -/

/-- C2: attaching via a context captured from a parent run produces a
record whose trace id equals the parent's trace id, whose parent id is the
parent's id, and whose dotted order is the parent's dotted order extended
by exactly one dot-free segment. -/
theorem claim_attach_capture_links_to_parent (parent : RunRecord) (bag : KV)
    (name rt : Str) (inp : KV) (now : Nat) (s : SysState)
    (h : validCtx (capture parent bag) = true) :
    attachInfo (attachRun (capture parent bag) name rt inp now s) =
      some (parent.trace_id, some parent.id, parent.dotted_order ++
        '.' :: segStr (effTime s parent.id now) (idStr s.nextId)) ∧
    dotFreeB (segStr (effTime s parent.id now) (idStr s.nextId)) = true := by
  constructor
  · rw [attachRun, if_pos (by rw [h])]
    rfl
  · exact dotFreeB_segStr _ _

/-- Witness for C2 at a concrete parent run, empty baggage and the empty
starting state. -/
theorem claim_attach_capture_links_to_parent_witness :
    validCtx (capture ⟨['0'], ['0'], none, ['r'], ['c'], [], none, 0, none, [], [],
      ['0', '0']⟩ []) = true ∧
    attachInfo (attachRun (capture ⟨['0'], ['0'], none, ['r'], ['c'], [], none, 0, none,
        [], [], ['0', '0']⟩ []) ['n'] ['c'] [] 0 startState) =
      some (['0'], some ['0'], ['0', '0'] ++
        '.' :: segStr (effTime startState ['0'] 0) (idStr 0)) ∧
    dotFreeB (segStr (effTime startState ['0'] 0) (idStr 0)) = true := by
  refine ⟨by decide, ?_⟩
  exact claim_attach_capture_links_to_parent
    ⟨['0'], ['0'], none, ['r'], ['c'], [], none, 0, none, [], [], ['0', '0']⟩ []
    ['n'] ['c'] [] 0 startState (by decide)

end Tracing
